import Mathlib

/-!
Verification of the flat-store filesystem emulation layer of `src/bin/hff.py`.

Python strings are modelled as Lean `String` (lists of characters); Python
sets of repo keys as `Finset String`; the backend commit operations as an
inductive `Op`.  Each `cmd_*` function of the source is embedded as a pure
planning function from the key set (and the command's inputs) to the
operations it would commit, with `Except` capturing the `die` failure paths.
-/

namespace HFF

/-- Whitespace stripped by Python `str.strip()` (modelled over the ASCII
whitespace characters; the source calls Python's Unicode-aware `str.strip`). -/
def pyIsSpace (c : Char) : Bool :=
  c = ' ' || c = '\t' || c = '\n' || c = '\r' || c = '\x0b' || c = '\x0c'

/-- Drop the trailing run of characters satisfying `p` (Python `rstrip`). -/
def stripTrailing (p : Char → Bool) (l : List Char) : List Char :=
  (l.reverse.dropWhile p).reverse

/-- Drop the leading and trailing runs of characters satisfying `p`
(Python `str.strip(chars)`). -/
def stripBoth (p : Char → Bool) (l : List Char) : List Char :=
  stripTrailing p (l.dropWhile p)

/-- Python `s.strip()` with no argument. -/
def pyStrip (l : List Char) : List Char := stripBoth pyIsSpace l

/-- Python `p.replace("\\", "/")`. -/
def replaceBackslash (l : List Char) : List Char :=
  l.map fun c => if c = '\\' then '/' else c

/-- Python `while p.startswith("./"): p = p[2:]`. -/
def dropDotSlash : List Char → List Char
  | [] => []
  | [c] => [c]
  | c₁ :: c₂ :: rest =>
    if c₁ = '.' ∧ c₂ = '/' then dropDotSlash rest else c₁ :: c₂ :: rest

/-- `normalize_path` of `src/bin/hff.py` (lines 41-47): strip whitespace,
strip leading `/`, replace `\` by `/`, repeatedly strip a leading `./`,
then strip leading and trailing `/`. -/
def normalize_path (s : String) : String :=
  String.mk (stripBoth (fun c => c = '/')
    (dropDotSlash (replaceBackslash ((pyStrip s.data).dropWhile (fun c => c = '/')))))

/-- `parent_dir` of `src/bin/hff.py`: normalize, then everything before the
last `/` (empty when there is no `/`). -/
def parent_dir (path : String) : String :=
  let p := (normalize_path path).data
  if '/' ∈ p then String.mk (((p.reverse.dropWhile (fun c => ¬ c = '/')).drop 1).reverse)
  else ""

/-- `has_glob` of `src/bin/hff.py`: true iff the string contains `*`, `?` or `[`. -/
def has_glob (s : String) : Bool :=
  s.data.any fun c => c = '*' || c = '?' || c = '['

/-- Python `s.startswith(pre)`, as a character-list prefix test. -/
def pyStartsWith (pre s : String) : Bool :=
  pre.data.isPrefixOf s.data

theorem strMk_data (s : String) : String.mk s.data = s := by
cases s
rfl

theorem head?_dropWhile_not (p : Char → Bool) (l : List Char) (c : Char)
    (h : (l.dropWhile p).head? = some c) : p c = false := by
induction l with
| nil => simp [List.dropWhile] at h
| cons a t ih =>
  by_cases hpa : p a
  · rw [List.dropWhile_cons, if_pos hpa] at h
    exact ih h
  · rw [List.dropWhile_cons, if_neg hpa] at h
    simp only [List.head?_cons, Option.some.injEq] at h
    subst h
    simpa using hpa

theorem dropWhile_eq_self_of_head (p : Char → Bool) (l : List Char)
    (h : ∀ c, l.head? = some c → p c = false) : l.dropWhile p = l := by
cases l with
| nil => rfl
| cons a t =>
  rw [List.dropWhile_cons, if_neg]
  simp [h a rfl]

theorem stripTrailing_append (p : Char → Bool) (l : List Char) :
    ∃ t, stripTrailing p l ++ t = l := by
obtain ⟨s, hs⟩ := List.dropWhile_suffix (l := l.reverse) (p := p)
refine ⟨s.reverse, ?_⟩
have := congrArg List.reverse hs
simpa [stripTrailing] using this

theorem stripTrailing_getLast_not (p : Char → Bool) (l : List Char) (c : Char)
    (h : (stripTrailing p l).getLast? = some c) : p c = false := by
rw [stripTrailing, List.getLast?_reverse] at h
exact head?_dropWhile_not p l.reverse c h

theorem stripBoth_head_not (p : Char → Bool) (l : List Char) (c : Char)
    (h : (stripBoth p l).head? = some c) : p c = false := by
obtain ⟨t, ht⟩ := stripTrailing_append p (l.dropWhile p)
apply head?_dropWhile_not p l c
cases hsb : stripBoth p l with
| nil => rw [hsb] at h; simp at h
| cons b bs =>
  rw [hsb] at h
  simp only [List.head?_cons, Option.some.injEq] at h
  subst h
  rw [stripBoth] at hsb
  rw [hsb] at ht
  rw [← ht]
  simp

theorem stripBoth_getLast_not (p : Char → Bool) (l : List Char) (c : Char)
    (h : (stripBoth p l).getLast? = some c) : p c = false :=
stripTrailing_getLast_not p (l.dropWhile p) c h

theorem stripTrailing_subset (p : Char → Bool) (l : List Char) :
    stripTrailing p l ⊆ l := by
obtain ⟨t, ht⟩ := stripTrailing_append p l
intro c hc
rw [← ht]
exact List.mem_append_left t hc

theorem stripBoth_subset (p : Char → Bool) (l : List Char) :
    stripBoth p l ⊆ l := by
intro c hc
exact (List.dropWhile_suffix p).subset (stripTrailing_subset p (l.dropWhile p) hc)

theorem dropDotSlash_subset : ∀ l : List Char, dropDotSlash l ⊆ l
  | [] => by simp [dropDotSlash]
  | [c] => by simp [dropDotSlash]
  | c₁ :: c₂ :: rest => by
    rw [dropDotSlash]
    by_cases h : c₁ = '.' ∧ c₂ = '/'
    · rw [if_pos h]
      intro c hc
      exact List.mem_cons_of_mem _ (List.mem_cons_of_mem _ (dropDotSlash_subset rest hc))
    · rw [if_neg h]
      exact fun c hc => hc

theorem mem_replaceBackslash_ne (l : List Char) (c : Char)
    (h : c ∈ replaceBackslash l) : ¬ c = '\\' := by
rw [replaceBackslash, List.mem_map] at h
obtain ⟨a, _, ha⟩ := h
subst ha
by_cases hab : a = '\\' <;> simp [hab]

theorem replaceBackslash_eq_self (l : List Char) (h : '\\' ∉ l) :
    replaceBackslash l = l := by
rw [replaceBackslash]
conv_rhs => rw [← List.map_id l]
apply List.map_congr_left
intro a ha
have : ¬ a = '\\' := fun hc => h (hc ▸ ha)
simp [this]

theorem dropDotSlash_eq_self (l : List Char) (h : l.take 2 ≠ ['.', '/']) :
    dropDotSlash l = l := by
match l with
| [] => rfl
| [c] => rfl
| c₁ :: c₂ :: rest =>
  rw [dropDotSlash, if_neg]
  intro hc
  exact h (by simp [hc.1, hc.2])

theorem stripTrailing_eq_self (p : Char → Bool) (l : List Char)
    (h : ∀ c, l.getLast? = some c → p c = false) : stripTrailing p l = l := by
rw [stripTrailing, dropWhile_eq_self_of_head, List.reverse_reverse]
intro c hc
rw [List.head?_reverse] at hc
exact h c hc

theorem stripBoth_eq_self (p : Char → Bool) (l : List Char)
    (hh : ∀ c, l.head? = some c → p c = false)
    (hl : ∀ c, l.getLast? = some c → p c = false) : stripBoth p l = l := by
rw [stripBoth, dropWhile_eq_self_of_head p l hh, stripTrailing_eq_self p l hl]

theorem normalize_path_head_ne (x : String) :
    (normalize_path x).data.head? ≠ some '/' := by
intro h
have := stripBoth_head_not (fun c => c = '/') _ '/' h
simp at this

theorem normalize_path_getLast_ne (x : String) :
    (normalize_path x).data.getLast? ≠ some '/' := by
intro h
have := stripBoth_getLast_not (fun c => c = '/') _ '/' h
simp at this

theorem normalize_path_no_backslash (x : String) :
    '\\' ∉ (normalize_path x).data := by
intro h
have h1 := stripBoth_subset (fun c => c = '/') _ h
have h2 := dropDotSlash_subset _ h1
exact mem_replaceBackslash_ne _ '\\' h2 rfl

theorem normalize_path_fixed (x : String)
    (h1 : pyStrip (normalize_path x).data = (normalize_path x).data)
    (h2 : (normalize_path x).data.take 2 ≠ ['.', '/']) :
    normalize_path (normalize_path x) = normalize_path x := by
have hh : ∀ c, (normalize_path x).data.head? = some c → (decide (c = '/')) = false := by
  intro c hc
  have := normalize_path_head_ne x
  rw [hc] at this
  simp only [ne_eq, Option.some.injEq] at this
  simp [this]
have hl : ∀ c, (normalize_path x).data.getLast? = some c → (decide (c = '/')) = false := by
  intro c hc
  have := normalize_path_getLast_ne x
  rw [hc] at this
  simp only [ne_eq, Option.some.injEq] at this
  simp [this]
conv_lhs => rw [normalize_path]
rw [h1, dropWhile_eq_self_of_head _ _ hh,
  replaceBackslash_eq_self _ (normalize_path_no_backslash x),
  dropDotSlash_eq_self _ h2,
  stripBoth_eq_self _ _ hh hl, strMk_data]

/-! ### Decimal rendering of `Nat` is injective

`unique_dest` builds candidates `f"{dest}__dup{i}"`; the decimal rendering
is `Nat.repr`.  Injectivity is needed to show finitely many probes suffice. -/

def digitVal (c : Char) : Nat := c.toNat - '0'.toNat

def decVal (l : List Char) : Nat := l.foldl (fun a c => 10 * a + digitVal c) 0

theorem toDigitsCore_append (fuel : Nat) : ∀ n ds,
    Nat.toDigitsCore 10 fuel n ds = Nat.toDigitsCore 10 fuel n [] ++ ds := by
induction fuel with
| zero => intro n ds; simp [Nat.toDigitsCore]
| succ f ih =>
  intro n ds
  simp only [Nat.toDigitsCore]
  by_cases h : n / 10 = 0
  · simp [h]
  · simp only [h, if_false]
    rw [ih (n / 10) [Nat.digitChar (n % 10)], ih (n / 10) (Nat.digitChar (n % 10) :: ds)]
    simp

theorem toDigitsCore_fuel (n : Nat) : ∀ f₁ f₂ ds, n < f₁ → n < f₂ →
    Nat.toDigitsCore 10 f₁ n ds = Nat.toDigitsCore 10 f₂ n ds := by
induction n using Nat.strong_induction_on with
| _ n ih =>
  intro f₁ f₂ ds h₁ h₂
  match f₁, f₂ with
  | a + 1, b + 1 =>
  simp only [Nat.toDigitsCore]
  by_cases h : n / 10 = 0
  · simp [h]
  · simp only [h, if_false]
    have hge : 10 ≤ n := by
      by_contra hx
      push_neg at hx
      exact h (Nat.div_eq_of_lt hx)
    have hlt : n / 10 < n := Nat.div_lt_self (by omega) (by omega)
    exact ih (n / 10) hlt a b _ (by omega) (by omega)

theorem toDigits_lt_ten (n : Nat) (h : n < 10) :
    Nat.toDigits 10 n = [Nat.digitChar n] := by
simp only [Nat.toDigits, Nat.toDigitsCore]
rw [Nat.div_eq_of_lt h, Nat.mod_eq_of_lt h]
simp

theorem toDigits_ge_ten (n : Nat) (h : 10 ≤ n) :
    Nat.toDigits 10 n = Nat.toDigits 10 (n / 10) ++ [Nat.digitChar (n % 10)] := by
have hpos : 0 < n / 10 := Nat.div_pos h (by omega)
conv_lhs => rw [Nat.toDigits]
simp only [Nat.toDigitsCore]
rw [if_neg (by omega : ¬ n / 10 = 0)]
rw [toDigitsCore_fuel (n / 10) n (n / 10 + 1) [Nat.digitChar (n % 10)]
  (Nat.div_lt_self (by omega) (by omega)) (by omega)]
rw [toDigitsCore_append (n / 10 + 1) (n / 10) [Nat.digitChar (n % 10)]]
rfl

theorem digitVal_digitChar (m : Nat) (h : m < 10) :
    digitVal (Nat.digitChar m) = m := by
interval_cases m <;> rfl

theorem decVal_toDigits (n : Nat) : decVal (Nat.toDigits 10 n) = n := by
induction n using Nat.strong_induction_on with
| _ n ih =>
  by_cases h : n < 10
  · rw [toDigits_lt_ten n h]
    simp [decVal, digitVal_digitChar n h]
  · rw [toDigits_ge_ten n (by omega)]
    have hlt : n / 10 < n := Nat.div_lt_self (by omega) (by omega)
    have := ih (n / 10) hlt
    simp only [decVal, List.foldl_append] at *
    rw [this]
    simp [digitVal_digitChar (n % 10) (Nat.mod_lt n (by omega))]
    omega

theorem natRepr_inj {m n : Nat} (h : Nat.repr m = Nat.repr n) : m = n := by
have h2 : Nat.toDigits 10 m = Nat.toDigits 10 n := congrArg String.data h
have := congrArg decVal h2
rwa [decVal_toDigits, decVal_toDigits] at this

/-! ### Collision resolver (`unique_dest`, lines 75-83) -/

/-- The collision candidate `f"{dest}__dup{i}"`. -/
def dupCand (dest : String) (i : Nat) : String := dest ++ "__dup" ++ Nat.repr i

/-- The probe loop of `unique_dest`, fuelled: try `i`, `i+1`, … . -/
def uniqueDestAux (dest : String) (existing : Finset String) : Nat → Nat → String
  | 0, i => dupCand dest i
  | fuel + 1, i =>
    if dupCand dest i ∈ existing then uniqueDestAux dest existing fuel (i + 1)
    else dupCand dest i

/-- `unique_dest` of `src/bin/hff.py` (lines 75-83).  The Python `while True`
loop always terminates because the candidates are pairwise distinct and the
key set is finite; `existing.card + 1` probes suffice, so the fuelled loop
computes the same result. -/
def unique_dest (dest : String) (existing : Finset String) : String :=
  if dest ∈ existing then uniqueDestAux dest existing (existing.card + 1) 1
  else dest

theorem string_data_inj {s t : String} (h : s.data = t.data) : s = t := by
have := congrArg String.mk h
rwa [strMk_data, strMk_data] at this

theorem dupCand_inj (dest : String) {i j : Nat} (h : dupCand dest i = dupCand dest j) :
    i = j := by
apply natRepr_inj
apply string_data_inj
have hd := congrArg String.data h
simp only [dupCand, String.data_append, List.append_assoc] at hd
exact List.append_cancel_left (List.append_cancel_left hd)

theorem uniqueDestAux_spec (dest : String) (S : Finset String) :
    ∀ fuel start, (∃ j, j < fuel ∧ dupCand dest (start + j) ∉ S) →
    ∃ j, j < fuel ∧ uniqueDestAux dest S fuel start = dupCand dest (start + j) ∧
      dupCand dest (start + j) ∉ S ∧ ∀ k, k < j → dupCand dest (start + k) ∈ S := by
intro fuel
induction fuel with
| zero =>
  intro start h
  obtain ⟨j, hj, _⟩ := h
  omega
| succ f ih =>
  intro start h
  by_cases hmem : dupCand dest start ∈ S
  · obtain ⟨j, hj, hout⟩ := h
    match j with
    | 0 => simp only [Nat.add_zero] at hout; exact absurd hmem hout
    | j' + 1 =>
      have hex : ∃ j, j < f ∧ dupCand dest (start + 1 + j) ∉ S := by
        refine ⟨j', by omega, ?_⟩
        have : start + 1 + j' = start + (j' + 1) := by omega
        rw [this]
        exact hout
      obtain ⟨j'', hj'', heq, hout'', hall⟩ := ih (start + 1) hex
      refine ⟨j'' + 1, by omega, ?_, ?_, ?_⟩
      · simp only [uniqueDestAux]
        rw [if_pos hmem, heq]
        congr 1
        omega
      · have : start + (j'' + 1) = start + 1 + j'' := by omega
        rw [this]
        exact hout''
      · intro k hk
        match k with
        | 0 => simpa using hmem
        | k' + 1 =>
          have : start + (k' + 1) = start + 1 + k' := by omega
          rw [this]
          exact hall k' (by omega)
  · exact ⟨0, by omega, by simp [uniqueDestAux, hmem], by simpa using hmem,
      fun k hk => absurd hk (by omega)⟩

theorem exists_dupCand_not_mem (dest : String) (S : Finset String) :
    ∃ j, j < S.card + 1 ∧ dupCand dest (1 + j) ∉ S := by
by_contra hcon
push_neg at hcon
have hsub : (Finset.range (S.card + 1)).image (fun j => dupCand dest (1 + j)) ⊆ S := by
  intro x hx
  rw [Finset.mem_image] at hx
  obtain ⟨j, hj, rfl⟩ := hx
  exact hcon j (Finset.mem_range.mp hj)
have hcard := Finset.card_le_card hsub
rw [Finset.card_image_of_injective _ (fun i j hij => by
  have := dupCand_inj dest hij
  omega)] at hcard
simp at hcard

/-- C7: `unique_dest d S` is never in `S`; it is `d` itself when `d ∉ S`;
otherwise it is `d ++ "__dup" ++ N` for the first integer `N ≥ 1` whose
candidate is absent from `S`. -/
theorem C7_unique_dest (d : String) (S : Finset String) :
    unique_dest d S ∉ S ∧
    (d ∉ S → unique_dest d S = d) ∧
    (d ∈ S → ∃ N, 1 ≤ N ∧ unique_dest d S = dupCand d N ∧ dupCand d N ∉ S ∧
      ∀ m, 1 ≤ m → m < N → dupCand d m ∈ S) := by
by_cases hd : d ∈ S
· obtain ⟨j, hj, heq, hout, hall⟩ :=
    uniqueDestAux_spec d S (S.card + 1) 1 (exists_dupCand_not_mem d S)
  have hu : unique_dest d S = dupCand d (1 + j) := by
    rw [unique_dest, if_pos hd, heq]
  refine ⟨by rw [hu]; exact hout, fun hcon => absurd hd hcon, fun _ => ?_⟩
  refine ⟨1 + j, by omega, hu, hout, ?_⟩
  intro m hm1 hmN
  have : m = 1 + (m - 1) := by omega
  rw [this]
  exact hall (m - 1) (by omega)
· rw [unique_dest, if_neg hd]
  exact ⟨hd, fun _ => rfl, fun hcon => absurd hcon hd⟩

/-! ### Backend commit operations and the directory emulator -/

/-- A backend commit operation (`CommitOperationAdd` / `CommitOperationDelete` /
`CommitOperationCopy`); the `add` payload is the content bytes (always `b""`
for directory markers in the embedded commands). -/
inductive Op : Type
| add (path : String) (content : List Nat)
| delete (path : String)
| copy (src : String) (dst : String)
deriving DecidableEq, Repr

/-- `ensure_dir_ops` of `src/bin/hff.py` (lines 62-72).  The Python function
mutates `existing` in place; here the updated working key set is returned
alongside the operations. -/
def ensure_dir_ops (existing : Finset String) (dir_path : String) :
    List Op × Finset String :=
  let d := normalize_path dir_path
  if d = "" then ([], existing)
  else
    let keep := d ++ "/.gitkeep"
    if keep ∈ existing then ([], existing)
    else ([Op.add keep []], insert keep existing)

/-- Outcome of `cmd_mkdir`: `die` on an empty normalized path, `"exists"`
without a commit, or one commit with the given operations and the resulting
key set. -/
inductive MkdirOutcome : Type
| err
| already
| committed (ops : List Op) (keys : Finset String)
deriving DecidableEq

/-- `cmd_mkdir` of `src/bin/hff.py` (lines 241-265). -/
def cmd_mkdir (files : Finset String) (path : String) : MkdirOutcome :=
  let d := normalize_path path
  if d = "" then .err
  else
    let r := ensure_dir_ops files d
    if r.1 = [] then .already
    else .committed r.1 r.2

/-- C8 counterexample: the path `".// /"` normalizes to `" "` (non-empty) and
the key set is empty, so no marker exists; the claim then requires one commit
adding the marker, but `cmd_mkdir` reports "already exists" and issues no
commit (because `ensure_dir_ops` re-normalizes `" "` to the empty string). -/
theorem C8_counterexample :
    normalize_path ".// /" ≠ "" ∧ cmd_mkdir ∅ ".// /" = .already := by
exact ⟨by decide, by decide⟩

/-- C8 (amended): `cmd_mkdir` fails when the path normalizes to empty; the
marker key is `normalize(normalize(path)) ++ "/.gitkeep"`; when the twice
normalized path is empty or the marker already exists it reports "exists"
with no commit; otherwise it issues exactly one commit adding the marker, and
a second call on the same path reports "exists" with no second commit. -/
theorem C8_mkdir (S : Finset String) (p : String) :
    (normalize_path p = "" → cmd_mkdir S p = .err) ∧
    (normalize_path p ≠ "" → normalize_path (normalize_path p) = "" →
      cmd_mkdir S p = .already) ∧
    (normalize_path p ≠ "" → normalize_path (normalize_path p) ≠ "" →
      normalize_path (normalize_path p) ++ "/.gitkeep" ∈ S →
      cmd_mkdir S p = .already) ∧
    (normalize_path p ≠ "" → normalize_path (normalize_path p) ≠ "" →
      normalize_path (normalize_path p) ++ "/.gitkeep" ∉ S →
      cmd_mkdir S p =
        .committed [Op.add (normalize_path (normalize_path p) ++ "/.gitkeep") []]
          (insert (normalize_path (normalize_path p) ++ "/.gitkeep") S) ∧
      cmd_mkdir (insert (normalize_path (normalize_path p) ++ "/.gitkeep") S) p = .already) := by
refine ⟨?_, ?_, ?_, ?_⟩
· intro h1
  simp [cmd_mkdir, h1]
· intro h1 h2
  simp [cmd_mkdir, ensure_dir_ops, h1, h2]
· intro h1 h2 h3
  simp [cmd_mkdir, ensure_dir_ops, h1, h2, h3]
· intro h1 h2 h3
  constructor
  · simp [cmd_mkdir, ensure_dir_ops, h1, h2, h3]
  · simp [cmd_mkdir, ensure_dir_ops, h1, h2, Finset.mem_insert_self]

/-- Witness for C8 at the concrete path `"a/b"` and the empty key set. -/
theorem C8_mkdir_witness :
    cmd_mkdir (∅ : Finset String) "a/b" =
      .committed [Op.add (normalize_path (normalize_path "a/b") ++ "/.gitkeep") []]
        (insert (normalize_path (normalize_path "a/b") ++ "/.gitkeep") ∅) ∧
    cmd_mkdir (insert (normalize_path (normalize_path "a/b") ++ "/.gitkeep") ∅) "a/b" =
      .already :=
(C8_mkdir ∅ "a/b").2.2.2 (by decide) (by decide) (by decide)

/-! ### Glob matcher (`fnmatchcase` shell-style matching, lines 168-175) -/

/-- Membership of `c` in the body of a `[...]` class: `a-b` ranges (by code
point, as in the regex Python's `fnmatch.translate` emits), other characters
literal, a trailing `-` literal. -/
def classMatch (c : Char) : List Char → Bool
  | [] => false
  | a :: '-' :: b :: rest => (decide (a ≤ c) && decide (c ≤ b)) || classMatch c rest
  | a :: rest => decide (c = a) || classMatch c rest

/-- Split a class body at its closing `]`: returns (content, rest after `]`),
or `none` when there is no closing `]`. -/
def splitClose : List Char → Option (List Char × List Char)
  | [] => none
  | c :: rest =>
    if c = ']' then some ([], rest)
    else (splitClose rest).map fun q => (c :: q.1, q.2)

theorem splitClose_length : ∀ l q, splitClose l = some q → q.2.length < l.length := by
intro l
induction l with
| nil => intro q h; simp [splitClose] at h
| cons c rest ih =>
  intro q h
  rw [splitClose] at h
  by_cases hc : c = ']'
  · rw [if_pos hc] at h
    simp only [Option.some.injEq] at h
    subst h
    simp
  · rw [if_neg hc, Option.map_eq_some'] at h
    obtain ⟨q', hq', rfl⟩ := h
    have := ih q' hq'
    simp only [List.length_cons]
    omega

/-- The part of `fnmatch.translate` class handling after the optional `!`:
a `]` in first position belongs to the class body; no closing `]` means
failure (the `[` is then a literal). -/
def parseClassBody (neg : Bool) (l : List Char) : Option (Bool × List Char × List Char) :=
  if l.head? = some ']' then
    (splitClose l.tail).map fun q => (neg, ']' :: q.1, q.2)
  else
    (splitClose l).map fun q => (neg, q.1, q.2)

/-- Parse what follows a `[` in a pattern, following Python's
`fnmatch.translate`: an optional leading `!` negates. -/
def parseClass (l : List Char) : Option (Bool × List Char × List Char) :=
  if l.head? = some '!' then parseClassBody true l.tail
  else parseClassBody false l

/-- A compiled glob-pattern token. -/
inductive Tok : Type
| star
| que
| lit (c : Char)
| cls (neg : Bool) (body : List Char)
deriving DecidableEq, Repr

theorem parseClassBody_length (neg : Bool) (l : List Char)
    (q : Bool × List Char × List Char) (h : parseClassBody neg l = some q) :
    q.2.2.length < l.length + 1 := by
rw [parseClassBody] at h
have htl : l.tail.length ≤ l.length := by cases l <;> simp
by_cases hh : l.head? = some ']'
· rw [if_pos hh, Option.map_eq_some'] at h
  obtain ⟨q', hq', rfl⟩ := h
  have := splitClose_length _ q' hq'
  simp only []
  omega
· rw [if_neg hh, Option.map_eq_some'] at h
  obtain ⟨q', hq', rfl⟩ := h
  have := splitClose_length _ q' hq'
  simp only []
  omega

theorem parseClass_length (l : List Char) (q : Bool × List Char × List Char)
    (h : parseClass l = some q) : q.2.2.length < l.length + 1 := by
rw [parseClass] at h
have htl : l.tail.length ≤ l.length := by cases l <;> simp
by_cases hh : l.head? = some '!'
· rw [if_pos hh] at h
  have := parseClassBody_length true l.tail q h
  omega
· rw [if_neg hh] at h
  have := parseClassBody_length false l q h
  omega

/-- The pattern-compilation loop, fuelled: every step consumes at least one
pattern character (`parseClass_length` above), so `l.length + 1` steps always
suffice and the `0` arm is never reached. -/
def compilePatGo : Nat → List Char → List Tok
  | 0, _ => []
  | f + 1, l =>
    match l with
    | [] => []
    | '*' :: ps => .star :: compilePatGo f ps
    | '?' :: ps => .que :: compilePatGo f ps
    | '[' :: ps =>
      match parseClass ps with
      | none => .lit '[' :: compilePatGo f ps
      | some q => .cls q.1 q.2.1 :: compilePatGo f q.2.2
    | c :: ps => .lit c :: compilePatGo f ps

/-- Compile a glob pattern to tokens (`*`, `?`, `[...]` classes, literals). -/
def compilePat (l : List Char) : List Tok := compilePatGo (l.length + 1) l

/-- The matching loop, fuelled: every step shrinks the pattern or the name,
so `p.length + n.length + 1` steps always suffice and the `0` arm is never
reached.  The semantics are those of the regex `fnmatch.translate` produces
(`*` ↦ `.*` with backtracking, `?` ↦ `.`, classes match one character). -/
def tokMatchGo : Nat → List Tok → List Char → Bool
  | 0, _, _ => false
  | f + 1, p, n =>
    match p, n with
    | [], [] => true
    | [], _ :: _ => false
    | .star :: ps, name =>
      tokMatchGo f ps name ||
        (match name with
         | [] => false
         | _ :: cs => tokMatchGo f (.star :: ps) cs)
    | .que :: ps, _ :: cs => tokMatchGo f ps cs
    | .que :: _, [] => false
    | .cls neg body :: ps, c :: cs => (neg != classMatch c body) && tokMatchGo f ps cs
    | .cls _ _ :: _, [] => false
    | .lit q :: ps, c :: cs => (q == c) && tokMatchGo f ps cs
    | .lit _ :: _, [] => false

/-- Shell-style match of the compiled pattern against a name. -/
def tokMatch (p : List Tok) (n : List Char) : Bool :=
  tokMatchGo (p.length + n.length + 1) p n

/-- Python `fnmatch.fnmatchcase(name, pat)`. -/
def fnmatchcase (name pat : String) : Bool :=
  tokMatch (compilePat pat.data) name.data

/-- Lexicographic code-point comparison of character lists, as Python
compares strings. -/
def lexLe : List Char → List Char → Bool
  | [], _ => true
  | _ :: _, [] => false
  | a :: as, b :: bs => if a < b then true else if a = b then lexLe as bs else false

/-- Python `s₁ <= s₂` on strings; `sorted` orders by it. -/
def strLe (a b : String) : Prop := lexLe a.data b.data = true

instance strLeDec : DecidableRel strLe :=
fun a b => inferInstanceAs (Decidable (lexLe a.data b.data = true))

/-- `match_glob` of `src/bin/hff.py` (lines 170-175): match every file
against the normalized pattern, sorted. -/
def match_glob (files : List String) (pat : String) : List String :=
  List.insertionSort strLe (files.filter fun f => fnmatchcase f (normalize_path pat))

instance exceptDecEq {ε α : Type} [DecidableEq ε] [DecidableEq α] :
    DecidableEq (Except ε α) := fun a b =>
match a, b with
| .error e₁, .error e₂ =>
  if h : e₁ = e₂ then isTrue (by rw [h])
  else isFalse (by intro hc; injection hc; contradiction)
| .error _, .ok _ => isFalse (by intro hc; injection hc)
| .ok _, .error _ => isFalse (by intro hc; injection hc)
| .ok a₁, .ok a₂ =>
  if h : a₁ = a₂ then isTrue (by rw [h])
  else isFalse (by intro hc; injection hc; contradiction)

/-! ### `cmd_rm` (lines 268-313) -/

/-- The `die` failure paths of `cmd_rm`: empty path (usage, exit 2), exact
key absent (NotFound, exit 1), empty resolved target set (NoMatch, exit 1). -/
inductive RmErr : Type
| emptyPath
| notFound (key : String)
| noMatch
deriving DecidableEq, Repr

/-- Success outcome of `cmd_rm`: the dry-run target list, or one commit of
delete operations. -/
inductive RmOutcome : Type
| dryList (targets : List String)
| committed (ops : List Op)
deriving DecidableEq, Repr

/-- `cmd_rm` of `src/bin/hff.py` (lines 268-313). -/
def cmd_rm (files : List String) (raw : String) (dryRun : Bool) :
    Except RmErr RmOutcome :=
  let p := normalize_path raw
  if p = "" then .error .emptyPath
  else
    let targetsE : Except RmErr (List String) :=
      if has_glob p then .ok (match_glob files p)
      else if p.data.getLast? = some '/' then
        .ok (files.filter fun f =>
          pyStartsWith (String.mk (stripTrailing (fun c => c = '/') p.data) ++ "/") f)
      else if p ∉ files then .error (.notFound p)
      else .ok [p]
    match targetsE with
    | .error e => .error e
    | .ok targets =>
      if targets = [] then .error .noMatch
      else if dryRun then .ok (.dryList targets)
      else .ok (.committed (targets.map Op.delete))

/-- C2: on key set `["a/b.txt"]`, `rm "a/"` — which the claim requires to
delete every key with prefix `a/` — instead fails NotFound on the exact key
`"a"`; in general a normalized path never ends in `/`, so the prefix branch
of `cmd_rm` is unreachable. -/
theorem C2_rm_eval :
    cmd_rm ["a/b.txt"] "a/" false = .error (.notFound "a") ∧
    (∀ raw : String, (normalize_path raw).data.getLast? ≠ some '/') ∧
    cmd_rm ["a/b.txt", "a/c.txt", "b"] "a/*" false =
      .ok (.committed [Op.delete "a/b.txt", Op.delete "a/c.txt"]) ∧
    cmd_rm ["a/b.txt"] "z*" false = .error .noMatch ∧
    cmd_rm ["a/b.txt"] "a/b.txt" false = .ok (.committed [Op.delete "a/b.txt"]) :=
⟨by decide, fun raw => normalize_path_getLast_ne raw, by decide, by decide, by decide⟩

/-! ### `cmd_mv` (lines 316-410) -/

/-- Python `Path(p).name`: the final path component. -/
def pyBaseName (l : List Char) : List Char :=
  (l.reverse.takeWhile (fun c => ¬ c = '/')).reverse

/-- The `die` failure paths of `cmd_mv`. -/
inductive MvErr : Type
| emptyArgs
| nothingUnder (pref : String)
| srcNotFound (src : String)
deriving DecidableEq, Repr

/-- The planning state of the directory-move loop of `cmd_mv`: accumulated
operations, memoized ensured directories, the working key set, and the list
of final destinations. -/
structure MvDirState : Type where
  ops : List Op
  ensured : Finset String
  fs : Finset String
  moved : List String

/-- `ensure_parent` of `cmd_mv` (lines 363-368). -/
def ensureParent (st : MvDirState) (d : String) : MvDirState :=
  let d' := normalize_path d
  if d' = "" ∨ d' ∈ st.ensured then st
  else
    let r := ensure_dir_ops st.fs d'
    { st with ops := st.ops ++ r.1, fs := r.2, ensured := insert d' st.ensured }

/-- One iteration of the directory-move loop of `cmd_mv` (lines 371-382). -/
def mvDirStep (srcPref dstPref : String) (st : MvDirState) (f : String) : MvDirState :=
  let rel := String.mk (f.data.drop srcPref.data.length)
  let newPath := dstPref ++ rel
  let st₁ := ensureParent st (parent_dir newPath)
  let newPath₂ := unique_dest newPath st₁.fs
  { st₁ with
    ops := st₁.ops ++ [Op.copy f newPath₂, Op.delete f],
    fs := insert newPath₂ st₁.fs,
    moved := st₁.moved ++ [newPath₂] }

/-- Success outcome of `cmd_mv`: a subtree move (one commit, destination
list, file count) or a single-file move (one commit, final destination). -/
inductive MvOutcome : Type
| dirMoved (ops : List Op) (moved : List String) (count : Nat)
| singleMoved (ops : List Op) (final : String)
deriving DecidableEq, Repr

/-- `cmd_mv` of `src/bin/hff.py` (lines 336-410), with `_mv_single`
(lines 316-333) inlined in the single-file branch. -/
def cmd_mv (files : List String) (src_raw dst_raw : String) : Except MvErr MvOutcome :=
  let files_set : Finset String := files.toFinset
  let src_raw' := String.mk (pyStrip src_raw.data)
  let dst_raw' := String.mk (pyStrip dst_raw.data)
  let src := normalize_path src_raw'
  let dst := normalize_path dst_raw'
  if src = "" ∨ dst = "" then .error .emptyArgs
  else if src_raw'.data.getLast? = some '/' ∨ src.data.getLast? = some '/' then
    let srcPref := String.mk (stripTrailing (fun c => c = '/') src.data) ++ "/"
    let dstPref := String.mk (stripTrailing (fun c => c = '/') dst.data) ++ "/"
    let sorted := List.insertionSort strLe (files.dedup.filter fun f => pyStartsWith srcPref f)
    if sorted = [] then .error (.nothingUnder srcPref)
    else
      let st := sorted.foldl (mvDirStep srcPref dstPref) ⟨[], ∅, files_set, []⟩
      .ok (.dirMoved st.ops st.moved sorted.length)
  else
    let dst₂ :=
      if dst.data.getLast? = some '/' then dst ++ String.mk (pyBaseName src.data)
      else dst
    if src ∉ files_set then .error (.srcNotFound src)
    else
      let r := ensure_dir_ops files_set (parent_dir dst₂)
      let final := unique_dest dst₂ r.2
      .ok (.singleMoved (r.1 ++ [Op.copy src final, Op.delete src]) final)

set_option maxHeartbeats 2000000 in
/-- C3: on key set `["a/b/local.txt"]`, `mv "a/b/local.txt" "a/c/"` — which
the claim requires to store the file under `a/c/local.txt` — instead moves it
to the key `a/c`: the destination's trailing slash was already stripped by
normalization when the basename-append check runs, so that check never
fires.  (The NotFound behaviour on an absent source does hold, third
conjunct.) -/
theorem C3_mv_eval :
    cmd_mv ["a/b/local.txt"] "a/b/local.txt" "a/c/" =
      .ok (.singleMoved
        [Op.add "a/.gitkeep" [], Op.copy "a/b/local.txt" "a/c", Op.delete "a/b/local.txt"]
        "a/c") ∧
    ("a/c" : String) ≠ "a/c/local.txt" ∧
    cmd_mv ["a/b/local.txt"] "a/zz" "a/c/" = .error (.srcNotFound "a/zz") :=
⟨by decide, by decide, by decide⟩

/-! ### C10: the subtree-move planning invariant -/

theorem unique_dest_not_mem (d : String) (S : Finset String) : unique_dest d S ∉ S := by
by_cases hd : d ∈ S
· obtain ⟨j, hj, heq, hout, hall⟩ :=
    uniqueDestAux_spec d S (S.card + 1) 1 (exists_dupCand_not_mem d S)
  rw [unique_dest, if_pos hd, heq]
  exact hout
· rw [unique_dest, if_neg hd]
  exact hd

/-- The destination keys of the Copy operations of a commit, in order. -/
def copyDests : List Op → List String
  | [] => []
  | Op.copy _ d :: rest => d :: copyDests rest
  | _ :: rest => copyDests rest

theorem copyDests_append (a b : List Op) :
    copyDests (a ++ b) = copyDests a ++ copyDests b := by
induction a with
| nil => rfl
| cons op rest ih => cases op <;> simp [copyDests, ih]

theorem ensure_dir_ops_fs (existing : Finset String) (dp : String) :
    existing ⊆ (ensure_dir_ops existing dp).2 := by
simp only [ensure_dir_ops]
by_cases h1 : normalize_path dp = ""
· simp [h1]
· simp only [h1, if_false]
  by_cases h2 : normalize_path dp ++ "/.gitkeep" ∈ existing
  · simp [h2]
  · simp [h2, Finset.subset_insert]

theorem ensure_dir_ops_copyDests (existing : Finset String) (dp : String) :
    copyDests (ensure_dir_ops existing dp).1 = [] := by
simp only [ensure_dir_ops]
by_cases h1 : normalize_path dp = ""
· simp [h1, copyDests]
· simp only [h1, if_false]
  by_cases h2 : normalize_path dp ++ "/.gitkeep" ∈ existing
  · simp [h2, copyDests]
  · simp [h2, copyDests]

/-- Invariant of the subtree-move planning loop relative to the key set `S₀`
read at the start of the command: the working set extends `S₀`, the planned
destinations are distinct, fresh relative to `S₀`, recorded in the working
set, and are exactly the Copy destinations of the planned operations. -/
def MvInv (S₀ : Finset String) (st : MvDirState) : Prop :=
  S₀ ⊆ st.fs ∧ st.moved.Nodup ∧ (∀ m ∈ st.moved, m ∉ S₀) ∧
    (∀ m ∈ st.moved, m ∈ st.fs) ∧ copyDests st.ops = st.moved

@[simp] theorem mvdir_ops (a : List Op) (b c : Finset String) (d : List String) :
    (MvDirState.mk a b c d).ops = a := rfl

@[simp] theorem mvdir_ensured (a : List Op) (b c : Finset String) (d : List String) :
    (MvDirState.mk a b c d).ensured = b := rfl

@[simp] theorem mvdir_fs (a : List Op) (b c : Finset String) (d : List String) :
    (MvDirState.mk a b c d).fs = c := rfl

@[simp] theorem mvdir_moved (a : List Op) (b c : Finset String) (d : List String) :
    (MvDirState.mk a b c d).moved = d := rfl

theorem ensureParent_inv (S₀ : Finset String) (st : MvDirState) (d : String)
    (h : MvInv S₀ st) : MvInv S₀ (ensureParent st d) := by
simp only [ensureParent]
by_cases hc : normalize_path d = "" ∨ normalize_path d ∈ st.ensured
· rw [if_pos hc]; exact h
· rw [if_neg hc]
  obtain ⟨h1, h2, h3, h4, h5⟩ := h
  have hfs := ensure_dir_ops_fs st.fs (normalize_path d)
  have hcd := ensure_dir_ops_copyDests st.fs (normalize_path d)
  generalize hE : ensure_dir_ops st.fs (normalize_path d) = E at hfs hcd ⊢
  refine ⟨?_, ?_, ?_, ?_, ?_⟩
  · simp only [mvdir_fs]
    exact Finset.Subset.trans h1 hfs
  · simp only [mvdir_moved]
    exact h2
  · simp only [mvdir_moved]
    exact h3
  · simp only [mvdir_moved, mvdir_fs]
    intro m hm
    exact hfs (h4 m hm)
  · simp only [mvdir_ops, mvdir_moved]
    rw [copyDests_append, h5, hcd]
    simp

theorem mv_append_inv (S₀ : Finset String) (st₁ : MvDirState) (f newPath : String)
    (h : MvInv S₀ st₁) :
    MvInv S₀ { st₁ with
      ops := st₁.ops ++ [Op.copy f (unique_dest newPath st₁.fs), Op.delete f],
      fs := insert (unique_dest newPath st₁.fs) st₁.fs,
      moved := st₁.moved ++ [unique_dest newPath st₁.fs] } := by
obtain ⟨h1, h2, h3, h4, h5⟩ := h
have hnew : unique_dest newPath st₁.fs ∉ st₁.fs := unique_dest_not_mem newPath st₁.fs
have hnm : unique_dest newPath st₁.fs ∉ st₁.moved := fun hmem => hnew (h4 _ hmem)
refine ⟨?_, ?_, ?_, ?_, ?_⟩
· simp only [mvdir_fs]
  exact Finset.Subset.trans h1 (Finset.subset_insert _ _)
· simp only [mvdir_moved]
  rw [List.nodup_append]
  exact ⟨h2, List.nodup_singleton _, by
    intro x hx hy
    simp only [List.mem_singleton] at hy
    subst hy
    exact hnm hx⟩
· simp only [mvdir_moved]
  intro m hm
  rcases List.mem_append.mp hm with hm | hm
  · exact h3 m hm
  · simp only [List.mem_singleton] at hm
    subst hm
    exact fun hS => hnew (h1 hS)
· simp only [mvdir_moved, mvdir_fs]
  intro m hm
  rcases List.mem_append.mp hm with hm | hm
  · exact Finset.mem_insert_of_mem (h4 m hm)
  · simp only [List.mem_singleton] at hm
    subst hm
    exact Finset.mem_insert_self _ _
· simp only [mvdir_ops, mvdir_moved]
  rw [copyDests_append, h5]
  simp [copyDests]

theorem mvDirStep_inv (S₀ : Finset String) (sp dp : String) (st : MvDirState)
    (f : String) (h : MvInv S₀ st) : MvInv S₀ (mvDirStep sp dp st f) := by
have hp := ensureParent_inv S₀ st
  (parent_dir (dp ++ String.mk (f.data.drop sp.data.length))) h
simp only [mvDirStep]
exact mv_append_inv S₀ _ f _ hp

theorem foldl_mvDirStep_inv (S₀ : Finset String) (sp dp : String) :
    ∀ (l : List String) (st : MvDirState), MvInv S₀ st →
      MvInv S₀ (l.foldl (mvDirStep sp dp) st) := by
intro l
induction l with
| nil => intro st h; exact h
| cons f rest ih =>
  intro st h
  rw [List.foldl_cons]
  exact ih (mvDirStep sp dp st f) (mvDirStep_inv S₀ sp dp st f h)

theorem mvDir_plan_fresh (S₀ : Finset String) (sp dp : String) (l : List String) :
    (copyDests (l.foldl (mvDirStep sp dp) ⟨[], ∅, S₀, []⟩).ops).Nodup ∧
    ∀ k ∈ copyDests (l.foldl (mvDirStep sp dp) ⟨[], ∅, S₀, []⟩).ops, k ∉ S₀ := by
obtain ⟨-, h2, h3, -, h5⟩ := foldl_mvDirStep_inv S₀ sp dp l ⟨[], ∅, S₀, []⟩
  ⟨Finset.Subset.refl _, List.nodup_nil, by simp, by simp, rfl⟩
rw [h5]
exact ⟨h2, h3⟩

/-- C10: in the single commit built for one subtree move, the Copy
destination keys are pairwise distinct and none of them is a key of the set
read at the start of the command. -/
theorem C10_mv_dir (files : List String) (src_raw dst_raw : String)
    (ops : List Op) (moved : List String) (n : Nat)
    (h : cmd_mv files src_raw dst_raw = .ok (.dirMoved ops moved n)) :
    (copyDests ops).Nodup ∧ ∀ k ∈ copyDests ops, k ∉ files.toFinset := by
simp only [cmd_mv] at h
split at h
· simp at h
· split at h
  · split at h
    · simp at h
    · simp only [Except.ok.injEq, MvOutcome.dirMoved.injEq] at h
      obtain ⟨hops, -, -⟩ := h
      rw [← hops]
      exact mvDir_plan_fresh _ _ _ _
  · split at h <;> simp at h

/-- Witness for C10 at a concrete subtree move with a collision. -/
theorem C10_mv_dir_witness :
    (copyDests [Op.add "b/.gitkeep" [], Op.copy "a/x" "b/x__dup1", Op.delete "a/x",
      Op.copy "a/y" "b/y", Op.delete "a/y"]).Nodup ∧
    ∀ k ∈ copyDests [Op.add "b/.gitkeep" [], Op.copy "a/x" "b/x__dup1", Op.delete "a/x",
      Op.copy "a/y" "b/y", Op.delete "a/y"],
      k ∉ (["a/x", "a/y", "b/x"] : List String).toFinset :=
C10_mv_dir ["a/x", "a/y", "b/x"] "a/" "b/"
  [Op.add "b/.gitkeep" [], Op.copy "a/x" "b/x__dup1", Op.delete "a/x",
    Op.copy "a/y" "b/y", Op.delete "a/y"]
  ["b/x__dup1", "b/y"] 2 (by decide)

/-- Witness for C7 at `d = "k"` already present together with `k__dup1`. -/
theorem C7_unique_dest_witness :
    ("k" : String) ∈ ({"k", "k__dup1"} : Finset String) ∧
    ∃ N, 1 ≤ N ∧ unique_dest "k" {"k", "k__dup1"} = dupCand "k" N ∧
      dupCand "k" N ∉ ({"k", "k__dup1"} : Finset String) ∧
      ∀ m, 1 ≤ m → m < N → dupCand "k" m ∈ ({"k", "k__dup1"} : Finset String) :=
⟨by decide, (C7_unique_dest "k" {"k", "k__dup1"}).2.2 (by decide)⟩

/-- C4 counterexample: `normalize` is not idempotent: `".//./a"` normalizes
to `"./a"`, which normalizes further to `"a"` (stripping one leading `"./"`
can expose another, and the strip loop runs before the final slash strip). -/
theorem C4_counterexample :
    normalize_path (normalize_path ".//./a") ≠ normalize_path ".//./a" := by
decide

/-- C4 (amended): `normalize` never returns a string starting or ending with
`/` or containing `\`; it is idempotent on every input whose normal form
neither carries leading/trailing Python whitespace nor starts with `./`. -/
theorem C4_normalize (x : String) :
    (normalize_path x).data.head? ≠ some '/' ∧
    (normalize_path x).data.getLast? ≠ some '/' ∧
    '\\' ∉ (normalize_path x).data ∧
    (pyStrip (normalize_path x).data = (normalize_path x).data →
      (normalize_path x).data.take 2 ≠ ['.', '/'] →
      normalize_path (normalize_path x) = normalize_path x) :=
⟨normalize_path_head_ne x, normalize_path_getLast_ne x, normalize_path_no_backslash x,
  fun h1 h2 => normalize_path_fixed x h1 h2⟩

/-- Witness for C4 at the concrete input `"a/b"`. -/
theorem C4_normalize_witness :
    pyStrip (normalize_path "a/b").data = (normalize_path "a/b").data ∧
    (normalize_path "a/b").data.take 2 ≠ ['.', '/'] ∧
    normalize_path (normalize_path "a/b") = normalize_path "a/b" :=
⟨by decide, by decide, (C4_normalize "a/b").2.2.2 (by decide) (by decide)⟩

/-! ### `cmd_put` (lines 413-486) -/

/-- The modelled `die` failure paths of `cmd_put`: empty destination (usage)
and multiple files to a non-directory destination (exit 1).  Local-file
existence and upload failures are I/O and outside the embedding. -/
inductive PutErr : Type
| emptyDst
| multiNotDir
deriving DecidableEq, Repr

/-- The plan of `cmd_put`: the operations of the directory-ensuring commit
(empty when no commit is issued) and the repo keys of the independent
uploads, in order. -/
structure PutPlan : Type where
  ensureOps : List Op
  dests : List String
deriving DecidableEq, Repr

/-- `cmd_put` of `src/bin/hff.py` (lines 413-486), after local glob
expansion: `paths` is the list of matched local file paths. -/
def cmd_put (files : Finset String) (paths : List String) (dstArg : String) :
    Except PutErr PutPlan :=
  let dst_raw := normalize_path dstArg
  if dst_raw = "" then .error .emptyDst
  else if paths.length > 1 ∧ ¬ dst_raw.data.getLast? = some '/' then .error .multiNotDir
  else
    let target_dir :=
      if dst_raw.data.getLast? = some '/' then
        String.mk (stripTrailing (fun c => c = '/') dst_raw.data)
      else parent_dir dst_raw
    let ops := if target_dir = "" then [] else (ensure_dir_ops files target_dir).1
    let dests := paths.map fun q =>
      if dst_raw.data.getLast? = some '/' then
        String.mk (stripTrailing (fun c => c = '/') dst_raw.data) ++ "/" ++
          String.mk (pyBaseName q.data)
      else dst_raw
    .ok ⟨ops, dests⟩

/-- C1: `put local.txt "a/b/"` — which the claim requires to upload under
the key `a/b/local.txt` — instead uploads to the key `a/b`, and a multi-file
put fails even though the destination was given with a trailing slash: the
trailing slash was already stripped by normalization when `cmd_put` tests
for it, so the directory branch is unreachable for every input. -/
theorem C1_put_eval :
    cmd_put ∅ ["local.txt"] "a/b/" = .ok ⟨[Op.add "a/.gitkeep" []], ["a/b"]⟩ ∧
    ("a/b" : String) ≠ "a/b/local.txt" ∧
    cmd_put ∅ ["f1.txt", "f2.txt"] "a/b/" = .error .multiNotDir ∧
    (∀ dstArg : String, (normalize_path dstArg).data.getLast? ≠ some '/') :=
⟨by decide, by decide, by decide, fun dstArg => normalize_path_getLast_ne dstArg⟩

/-! ### Snapshot id (`snap_id_from_name`, lines 522-527) -/

/-- The character class kept by the slug: `ch.isalnum() or ch in "._-"`
(`isalnum` modelled over the ASCII range; Python's is Unicode-aware). -/
def isSlugChar (c : Char) : Bool :=
  c.isAlpha || c.isDigit || c = '.' || c = '_' || c = '-'

/-- One character of the slug map: keep the class, everything else `_`. -/
def slugChar (c : Char) : Char :=
  if isSlugChar c then c else '_'

/-- The word-splitting loop of Python `s.split()`, fuelled (each step
consumes at least one character, so `l.length + 1` steps suffice). -/
def pySplitGo : Nat → List Char → List (List Char)
  | 0, _ => []
  | f + 1, l =>
    match l.dropWhile pyIsSpace with
    | [] => []
    | c :: rest =>
      ((c :: rest).takeWhile fun x => !pyIsSpace x) ::
        pySplitGo f ((c :: rest).dropWhile fun x => !pyIsSpace x)

/-- Python `s.split()`: maximal whitespace-free chunks. -/
def pySplit (l : List Char) : List (List Char) := pySplitGo (l.length + 1) l

theorem pySplitGo_nil (f : Nat) : pySplitGo f [] = [] := by
cases f <;> rfl

/-- Python `"_".join(parts)`. -/
def joinUnderscore : List (List Char) → List Char
  | [] => []
  | [w] => w
  | w :: ws => w ++ '_' :: joinUnderscore ws

/-- `snap_id_from_name` of `src/bin/hff.py` (lines 522-527).  The timestamp
`ts` (Python `time.strftime("%Y%m%d_%H%M%S")`, I/O) is a parameter. -/
def snap_id_from_name (ts : String) (name : String) : String :=
  let slug0 := stripBoth (fun c => c = '.' || c = '_' || c = '-') (name.data.map slugChar)
  let slug1 := joinUnderscore (pySplit slug0)
  let slug2 := if slug1 = [] then "snapshot".data else slug1.take 120
  ts ++ "__" ++ String.mk slug2

theorem slugChar_not_space (c : Char) : pyIsSpace (slugChar c) = false := by
rw [slugChar]
by_cases hc : isSlugChar c = true
· rw [if_pos hc]
  rw [isSlugChar] at hc
  simp only [Bool.or_eq_true] at hc
  by_cases hs : pyIsSpace c = true
  · rw [pyIsSpace] at hs
    simp only [Bool.or_eq_true, decide_eq_true_eq] at hs
    rcases hs with ((((h | h) | h) | h) | h) | h <;> subst h <;> simp at hc
  · simpa using hs
· rw [if_neg hc]
  rfl

theorem slugChar_ok (c : Char) : isSlugChar (slugChar c) = true := by
rw [slugChar]
by_cases hc : isSlugChar c = true
· rwa [if_pos hc]
· rw [if_neg hc]
  rfl

theorem pySplit_no_space (l : List Char) (hl : ∀ c ∈ l, pyIsSpace c = false) :
    pySplit l = if l = [] then [] else [l] := by
have hdw : l.dropWhile pyIsSpace = l := by
  cases l with
  | nil => rfl
  | cons a t =>
    rw [List.dropWhile_cons, if_neg]
    simp [hl a (List.mem_cons_self a t)]
have htw : l.takeWhile (fun x => !pyIsSpace x) = l := by
  apply List.takeWhile_eq_self_iff.mpr
  intro x hx
  simp [hl x hx]
have hdw2 : l.dropWhile (fun x => !pyIsSpace x) = [] := by
  apply List.dropWhile_eq_nil_iff.mpr
  intro x hx
  simp [hl x hx]
cases l with
| nil => rfl
| cons a t =>
  rw [if_neg (by simp)]
  show pySplitGo (t.length + 1 + 1) (a :: t) = [a :: t]
  rw [pySplitGo, hdw]
  show ((a :: t).takeWhile fun x => !pyIsSpace x) ::
      pySplitGo (t.length + 1) ((a :: t).dropWhile fun x => !pyIsSpace x) = [a :: t]
  rw [htw, hdw2, pySplitGo_nil]

theorem joinUnderscore_pySplit_no_space (l : List Char)
    (hl : ∀ c ∈ l, pyIsSpace c = false) : joinUnderscore (pySplit l) = l := by
rw [pySplit_no_space l hl]
by_cases h0 : l = []
· simp [h0, joinUnderscore]
· simp [h0, joinUnderscore]

theorem slug0_no_space (name : String) (c : Char)
    (hc : c ∈ stripBoth (fun c => c = '.' || c = '_' || c = '-') (name.data.map slugChar)) :
    pyIsSpace c = false := by
have h1 := stripBoth_subset (fun c => c = '.' || c = '_' || c = '-') _ hc
rw [List.mem_map] at h1
obtain ⟨a, -, ha⟩ := h1
rw [← ha]
exact slugChar_not_space a

/-- C5 counterexample: the name `"My Set!"` slugs to `My_Set`, not the
claimed `My_Set_`: the code strips trailing `.`/`_`/`-` from the slug
(`.strip("._-")`) after replacing the disallowed characters. -/
theorem C5_counterexample :
    snap_id_from_name "20260101_120000" "My Set!" = "20260101_120000__My_Set" ∧
    ("20260101_120000__My_Set" : String) ≠ "20260101_120000__My_Set_" :=
⟨by decide, by decide⟩

/-- C5 (amended): the id is `ts ++ "__" ++ slug`, where the slug maps every
character outside `[A-Za-z0-9._-]` to `_`, strips leading and trailing
`.`/`_`/`-` characters, collapses internal whitespace (vacuous, since
whitespace has already become `_`), truncates to 120 characters and defaults
to the literal `"snapshot"` when empty; the slug is never empty, never
longer than 120 characters, and contains only `[A-Za-z0-9._-]`; in
particular `"My Set!"` yields the slug `My_Set` (no trailing underscore). -/
theorem C5_snap_id (ts name : String) :
    (∃ slug : List Char,
      snap_id_from_name ts name = ts ++ "__" ++ String.mk slug ∧
      slug.length ≤ 120 ∧ slug ≠ [] ∧
      ∀ c ∈ slug, isSlugChar c = true) ∧
    snap_id_from_name ts "My Set!" = ts ++ "__" ++ "My_Set" := by
constructor
· have hj := joinUnderscore_pySplit_no_space
    (stripBoth (fun c => c = '.' || c = '_' || c = '-') (name.data.map slugChar))
    (slug0_no_space name)
  refine ⟨if joinUnderscore (pySplit (stripBoth (fun c => c = '.' || c = '_' || c = '-')
      (name.data.map slugChar))) = [] then "snapshot".data
    else (joinUnderscore (pySplit (stripBoth (fun c => c = '.' || c = '_' || c = '-')
      (name.data.map slugChar)))).take 120, rfl, ?_, ?_, ?_⟩
  · by_cases h0 : joinUnderscore (pySplit (stripBoth (fun c => c = '.' || c = '_' || c = '-')
        (name.data.map slugChar))) = []
    · rw [if_pos h0]
      decide
    · rw [if_neg h0]
      exact List.length_take_le 120 _
  · by_cases h0 : joinUnderscore (pySplit (stripBoth (fun c => c = '.' || c = '_' || c = '-')
        (name.data.map slugChar))) = []
    · rw [if_pos h0]
      decide
    · rw [if_neg h0]
      intro hc
      rcases List.take_eq_nil_iff.mp hc with h | h
      · exact absurd h (by decide)
      · exact h0 h
  · by_cases h0 : joinUnderscore (pySplit (stripBoth (fun c => c = '.' || c = '_' || c = '-')
        (name.data.map slugChar))) = []
    · rw [if_pos h0]
      decide
    · rw [if_neg h0]
      intro c hc
      have h1 := List.take_subset 120 _ hc
      rw [hj] at h1
      have h2 := stripBoth_subset (fun c => c = '.' || c = '_' || c = '-') _ h1
      rw [List.mem_map] at h2
      obtain ⟨a, -, ha⟩ := h2
      rw [← ha]
      exact slugChar_ok a
· exact congrArg (fun s => ts ++ "__" ++ s) (by decide)

/-- Witness for C5 at the concrete timestamp and name of the scenario. -/
theorem C5_snap_id_witness :
    snap_id_from_name "20260101_120000" "My Set!" = "20260101_120000" ++ "__" ++ "My_Set" :=
(C5_snap_id "20260101_120000" "My Set!").2

/-! ### Snapshot manifest (`cmd_snapshot_create` lines 555-568, and the
manifest check of `cmd_snapshot_get`, lines 645-651) -/

/-- A JSON value, as far as the manifest needs. -/
inductive MJson : Type
| str (s : String)
| num (n : Nat)
| arr (xs : List MJson)
| obj (fields : List (String × MJson))

/-- The manifest JSON written by `cmd_snapshot_create` (lines 556-566), with
the fields in the order of the Python dict literal. -/
def manifestJson (sid name created : String) (items : List String)
    (tarBasename : String) (tarBytes : Nat) (compress : String) : MJson :=
  .obj [("id", .str sid), ("name", .str name), ("created_utc", .str created),
    ("items", .arr (items.map .str)),
    ("tar", .obj [("basename", .str tarBasename), ("bytes", .num tarBytes),
      ("compress", .str compress)])]

/-- The key list of a JSON object. -/
def objKeys : MJson → List String
  | .obj fields => fields.map fun p => p.1
  | _ => []

/-- Python `dict.get(k)`: the value under the first matching key. -/
def objGet (j : MJson) (k : String) : Option MJson :=
  match j with
  | .obj fields => (fields.find? fun p => p.1 = k).map fun p => p.2
  | _ => none

/-- Python truthiness of a JSON value (`if not tar_base`). -/
def jsonTruthy : MJson → Bool
  | .str s => !s.data.isEmpty
  | .num n => n != 0
  | .arr [] => false
  | .arr (_ :: _) => true
  | .obj [] => false
  | .obj (_ :: _) => true

/-- The manifest check of `cmd_snapshot_get` (lines 645-649):
`meta.get("tar", {}).get("basename")`, failing with CorruptManifest
(`"manifest missing tar.basename"`) when absent or falsy. -/
def snapGetBasename (meta : MJson) : Except String MJson :=
  match objGet ((objGet meta "tar").getD (.obj [])) "basename" with
  | some v => if jsonTruthy v then .ok v else .error "manifest missing tar.basename"
  | none => .error "manifest missing tar.basename"

/-- C6 counterexample: the manifest's keys are
`id, name, created_utc, items, tar` (with `tar.{basename, bytes, compress}`),
not the claimed `created_timestamp` / `archive.{basename, size_bytes,
compression}`; and `snapshot get` rejects a manifest that provides
`archive.basename` but no `tar.basename`. -/
theorem C6_counterexample :
    objKeys (manifestJson "S" "n" "t" ["f"] "S.tar.gz" 10 "gz") =
      ["id", "name", "created_utc", "items", "tar"] ∧
    objKeys (manifestJson "S" "n" "t" ["f"] "S.tar.gz" 10 "gz") ≠
      ["id", "name", "created_timestamp", "items", "archive"] ∧
    snapGetBasename (.obj [("archive", .obj [("basename", .str "S.tar.gz")])]) =
      .error "manifest missing tar.basename" :=
⟨rfl, by decide, rfl⟩

/-- C6 (amended): the manifest JSON contains exactly the fields
`{id, name, created_utc, items, tar: {basename, bytes, compress}}`, and
`snapshot get` requires a truthy `tar.basename`, failing with
CorruptManifest when it is absent (and accepting the manifest written by
`snapshot create` whenever the recorded basename is non-empty). -/
theorem C6_manifest (sid name created : String) (items : List String)
    (base : String) (tarBytes : Nat) (compress : String) :
    objKeys (manifestJson sid name created items base tarBytes compress) =
      ["id", "name", "created_utc", "items", "tar"] ∧
    objKeys ((objGet (manifestJson sid name created items base tarBytes compress)
        "tar").getD (.obj [])) = ["basename", "bytes", "compress"] ∧
    (base ≠ "" →
      snapGetBasename (manifestJson sid name created items base tarBytes compress) =
        .ok (.str base)) ∧
    (∀ fields : List (String × MJson), objGet (.obj fields) "tar" = none →
      snapGetBasename (.obj fields) = .error "manifest missing tar.basename") := by
refine ⟨rfl, rfl, ?_, ?_⟩
· intro hb
  have hdata : ¬ base.data = [] := by
    intro hc
    apply hb
    have := congrArg String.mk hc
    rwa [strMk_data] at this
  simp only [snapGetBasename, manifestJson, objGet, objKeys]
  simp [jsonTruthy, List.find?, hdata]
· intro fields hm
  unfold snapGetBasename
  rw [hm]
  rfl

/-- Witness for C6 at concrete manifest arguments. -/
theorem C6_manifest_witness :
    ("S.tar.gz" : String) ≠ "" ∧
    snapGetBasename (manifestJson "S" "n" "t" ["f"] "S.tar.gz" 10 "gz") =
      .ok (.str "S.tar.gz") :=
⟨by decide, (C6_manifest "S" "n" "t" ["f"] "S.tar.gz" 10 "gz").2.2.1 (by decide)⟩

/-! ### `cmd_snapshot_destroy` (lines 667-698) -/

/-- Outcome of `cmd_snapshot_destroy`: missing id (usage), NoMatch, abort on
a failed confirmation (exit 1, nothing deleted), or one commit of delete
operations. -/
inductive DestroyOutcome : Type
| idRequired
| noMatch
| aborted
| committed (ops : List Op)
deriving DecidableEq, Repr

/-- The keys resolved by `cmd_snapshot_destroy` (line 676): every listed key
whose name starts with `<snapshot dir>/<id>.`. -/
def destroyTargets (files : List String) (snapdir sid : String) : List String :=
  files.filter fun f =>
    pyStartsWith (String.mk (stripTrailing (fun c => c = '/')
      (normalize_path snapdir).data) ++ "/" ++ sid ++ ".") f

/-- `cmd_snapshot_destroy` of `src/bin/hff.py` (lines 667-698); `confirm` is
the interactive input read when the `-y` flag is absent. -/
def cmd_snapshot_destroy (files : List String) (snapdir sid : String)
    (yes : Bool) (confirm : String) : DestroyOutcome :=
  if sid = "" then .idRequired
  else
    let targets := destroyTargets files snapdir sid
    if targets = [] then .noMatch
    else if ¬ yes ∧ ¬ String.mk (pyStrip confirm.data) = "DELETE" then .aborted
    else .committed (targets.map Op.delete)

/-- C9 counterexample: the confirmation input `" DELETE "` is not the exact
literal text `"DELETE"`, yet `cmd_snapshot_destroy` proceeds to delete (the
input is stripped of surrounding whitespace before the comparison), instead
of aborting with exit 1 as claimed for a wrong confirmation string. -/
theorem C9_counterexample :
    (" DELETE " : String) ≠ "DELETE" ∧
    cmd_snapshot_destroy ["snapshot/S1.manifest.json", "snapshot/S1.tar.gz"]
        "snapshot" "S1" false " DELETE " =
      .committed [Op.delete "snapshot/S1.manifest.json",
        Op.delete "snapshot/S1.tar.gz"] :=
⟨by decide, by decide⟩

/-- C9 (amended): `snapshot destroy` resolves exactly the listed keys
prefixed by `<snapshot dir>/<id>.`; it fails with NoMatch when none exist;
without the override flag it requires the whitespace-stripped confirmation
input to equal the literal `DELETE`, aborting with exit 1 and deleting
nothing otherwise; on confirmation (or with the flag) it deletes all matched
keys in one atomic commit. -/
theorem C9_destroy (files : List String) (snapdir sid : String) (yes : Bool)
    (confirm : String) :
    (∀ t : String, t ∈ destroyTargets files snapdir sid ↔
      t ∈ files ∧ pyStartsWith (String.mk (stripTrailing (fun c => c = '/')
        (normalize_path snapdir).data) ++ "/" ++ sid ++ ".") t = true) ∧
    (sid ≠ "" → destroyTargets files snapdir sid = [] →
      cmd_snapshot_destroy files snapdir sid yes confirm = .noMatch) ∧
    (sid ≠ "" → destroyTargets files snapdir sid ≠ [] → yes = false →
      String.mk (pyStrip confirm.data) ≠ "DELETE" →
      cmd_snapshot_destroy files snapdir sid yes confirm = .aborted) ∧
    (sid ≠ "" → destroyTargets files snapdir sid ≠ [] →
      (yes = true ∨ String.mk (pyStrip confirm.data) = "DELETE") →
      cmd_snapshot_destroy files snapdir sid yes confirm =
        .committed ((destroyTargets files snapdir sid).map Op.delete)) := by
refine ⟨?_, ?_, ?_, ?_⟩
· intro t
  rw [destroyTargets, List.mem_filter]
· intro h1 h2
  simp [cmd_snapshot_destroy, h1, h2]
· intro h1 h2 h3 h4
  subst h3
  simp [cmd_snapshot_destroy, h1, h2, h4]
· intro h1 h2 h3
  rcases h3 with h3 | h3
  · subst h3
    simp [cmd_snapshot_destroy, h1, h2]
  · simp [cmd_snapshot_destroy, h1, h2, h3]

/-- Witness for C9: a wrong confirmation aborts; `-y` commits the deletes. -/
theorem C9_destroy_witness :
    cmd_snapshot_destroy ["snapshot/S1.manifest.json"] "snapshot" "S1" false "no" =
      .aborted ∧
    cmd_snapshot_destroy ["snapshot/S1.manifest.json"] "snapshot" "S1" true "" =
      .committed [Op.delete "snapshot/S1.manifest.json"] :=
⟨(C9_destroy ["snapshot/S1.manifest.json"] "snapshot" "S1" false "no").2.2.1
    (by decide) (by decide) rfl (by decide),
  (C9_destroy ["snapshot/S1.manifest.json"] "snapshot" "S1" true "").2.2.2
    (by decide) (by decide) (Or.inl rfl)⟩

end HFF

